import Mathlib

/-!
Verification of the two CI helper scripts of this repository:
`.github/scripts/filter_cppcheck_result.py` (filters cppcheck XML findings
to the lines changed in a git diff range and writes a CSV report) and
`.github/scripts/convert_misra_rules.py` (converts a MISRA deviation list
into a cppcheck suppression file).

Python strings are modelled as Lean `String`s, processed through their
underlying `List Char`; Python integers as `Int` (line numbers) or `Nat`
(sizes and indices); fallible operations return `Except`/`Option`.
External effects (the `git diff` subprocess, the HTTPS fetch) are passed
in as explicit arguments holding the outcome the external world produced.
-/

/-! ## Lexicographic tuple order (Python compares `(start, end)` tuples
lexicographically in `sorted` and `bisect`) -/

/-- Strict lexicographic order on pairs of integers: Python `(a1, a2) < (b1, b2)`. -/
def pairLt (a b : Int × Int) : Prop := a.1 < b.1 ∨ (a.1 = b.1 ∧ a.2 < b.2)

/-- Non-strict lexicographic order on pairs of integers: Python `(a1, a2) <= (b1, b2)`. -/
def pairLe (a b : Int × Int) : Prop := a.1 < b.1 ∨ (a.1 = b.1 ∧ a.2 ≤ b.2)

instance : DecidableRel pairLt := fun _ _ => inferInstanceAs (Decidable (_ ∨ _))
instance : DecidableRel pairLe := fun _ _ => inferInstanceAs (Decidable (_ ∨ _))

instance : IsTotal (Int × Int) pairLe :=
  ⟨by intro a b; simp only [pairLe]; omega⟩

instance : IsTrans (Int × Int) pairLe :=
  ⟨by intro a b c; simp only [pairLe]; omega⟩

instance : IsAntisymm (Int × Int) pairLe :=
  ⟨fun a b h1 h2 => by
    simp only [pairLe] at h1 h2
    have h : a.1 = b.1 ∧ a.2 = b.2 := by omega
    exact Prod.ext h.1 h.2⟩

/-! ## `parse_diff_ranges` -/

/-- Split a character list at newline characters, as Python `str.split("\n")`:
the result always has one more part than there are newlines (so `""` splits
to `[""]`). -/
def splitLinesAux (acc : List Char) : List Char → List (List Char)
  | [] => [acc.reverse]
  | c :: rest => if c = '\n' then acc.reverse :: splitLinesAux [] rest
                 else splitLinesAux (c :: acc) rest

/-- Python `diff_output.split("\n")`. -/
def splitLines (cs : List Char) : List (List Char) := splitLinesAux [] cs

/-- Leftmost match of the regex `\+(\d+)(?:,(\d+))?` in a line, as
`re.search` finds it: the first `+` that is followed by a digit; group 1 is
the maximal digit run after the `+`, and group 2 (when a comma and at least
one digit follow) the maximal digit run after that comma. -/
def findPlusMatch : List Char → Option (List Char × Option (List Char))
  | [] => none
  | c :: rest =>
    if c = '+' ∧ (rest.headD ' ').isDigit ∧ rest ≠ [] then
      let g1 := rest.takeWhile Char.isDigit
      let after := rest.dropWhile Char.isDigit
      match after with
      | ',' :: d :: _ =>
        if d.isDigit then some (g1, some ((after.drop 1).takeWhile Char.isDigit))
        else some (g1, none)
      | _ => some (g1, none)
    else findPlusMatch rest

/-- Decimal value of a digit run, as Python `int` reads the regex groups. -/
def digitsToNat (ds : List Char) : Nat :=
  ds.foldl (fun a c => 10 * a + (c.toNat - '0'.toNat)) 0

/-- `parse_diff_ranges(diff_output)`: for every line starting with `@@`,
match `\+(\d+)(?:,(\d+))?`; `start` is group 1, `count` group 2 (default 1),
and when `count > 0` the range `(start, start + count - 1)` is collected. -/
def parse_diff_ranges (diffOutput : String) : List (Int × Int) :=
  (splitLines diffOutput.data).filterMap fun line =>
    match line with
    | '@' :: '@' :: _ =>
      match findPlusMatch line with
      | some (g1, g2?) =>
        let start : Int := digitsToNat g1
        let count : Int := match g2? with
          | some g2 => digitsToNat g2
          | none => 1
        if 0 < count then some (start, start + count - 1) else none
      | none => none
    | _ => none

example : parse_diff_ranges "@@ -10,0 +15,3 @@" = [(15, 17)] := by decide
example : parse_diff_ranges "@@ -1 +2 @@\nfoo\n@@ -5,2 +7,0 @@" = [(2, 2)] := by decide

/-! ## `is_line_in_ranges` -/

/-- `bisect.bisect_left`'s loop: `while lo < hi: mid = (lo+hi)//2;
if a[mid] < x: lo = mid+1 else: hi = mid`, written with explicit fuel so
that it is structural (the fuel never runs out when it starts at
`hi - lo`, and `bisect_left` below starts it at the list length). -/
def bisectLeftAux (s : List (Int × Int)) (x : Int × Int) : Nat → Nat → Nat → Nat
  | 0, lo, _ => lo
  | fuel + 1, lo, hi =>
    if lo < hi then
      if pairLt (s.getD ((lo + hi) / 2) (0, 0)) x then
        bisectLeftAux s x fuel ((lo + hi) / 2 + 1) hi
      else bisectLeftAux s x fuel lo ((lo + hi) / 2)
    else lo

/-- `bisect.bisect_left(a, x)` on the whole list. -/
def bisect_left (s : List (Int × Int)) (x : Int × Int) : Nat :=
  bisectLeftAux s x s.length 0 s.length

/-- Python's `sorted` on a list of int pairs: a stable sort by the
lexicographic tuple order. Because that order is total and antisymmetric,
any sorted permutation is the same list, so `List.insertionSort` computes
exactly `sorted`'s output. -/
def pySorted (ranges : List (Int × Int)) : List (Int × Int) :=
  List.insertionSort pairLe ranges

/-- `is_line_in_ranges(line_num, ranges)`: linear `any` scan when the list
has at most five ranges; otherwise sort, `bisect_left` for
`(line_num, line_num)`, and check the entries at `idx - 1` and `idx`
(each only when it is a valid index). -/
def is_line_in_ranges (line_num : Int) (ranges : List (Int × Int)) : Bool :=
  if ranges.length ≤ 5 then
    ranges.any fun r => decide (r.1 ≤ line_num) && decide (line_num ≤ r.2)
  else
    let sorted_ranges := pySorted ranges
    let idx : Int := bisect_left sorted_ranges (line_num, line_num)
    [idx - 1, idx].any fun i =>
      if 0 ≤ i ∧ i < (sorted_ranges.length : Int) then
        let r := sorted_ranges.getD i.toNat (0, 0)
        decide (r.1 ≤ line_num) && decide (line_num ≤ r.2)
      else false

example : is_line_in_ranges 16 [(15, 17)] = true := by decide
example : is_line_in_ranges 20 [(15, 17)] = false := by decide
example :
    is_line_in_ranges 10 [(1, 100), (2, 3), (3, 4), (4, 5), (5, 6), (50, 60)] = false := by
  decide

/-! ## `convert_misra_rules.py` -/

/-- A record of the downloaded `deviations` array: a dict with a
`"deviation"` text field. -/
structure Deviation where
  deviation : String
deriving DecidableEq

/-- Python `\s` on the characters these scripts see (ASCII whitespace). -/
def isPySpace (c : Char) : Bool :=
  c = ' ' || c = '\t' || c = '\n' || c = '\r' || c = '\x0b' || c = '\x0c'

/-- Attempt the regex `(Rule|Directive)\s+(\d+\.\d+)` anchored at the head
of `s`; on success return group 2 (`\d+\.\d+`). The character classes
involved are pairwise disjoint from what follows them, so greedy maximal
runs need no backtracking. -/
def ruleTryHere (s : List Char) : Option (List Char) :=
  let rem? :=
    if s.take 4 = ['R', 'u', 'l', 'e'] then some (s.drop 4)
    else if s.take 9 = ['D', 'i', 'r', 'e', 'c', 't', 'i', 'v', 'e'] then some (s.drop 9)
    else none
  match rem? with
  | none => none
  | some rem =>
    if rem.takeWhile isPySpace = [] then none
    else
      let r1 := rem.dropWhile isPySpace
      let d1 := r1.takeWhile Char.isDigit
      if d1 = [] then none
      else
        match r1.dropWhile Char.isDigit with
        | '.' :: r2 =>
          let d2 := r2.takeWhile Char.isDigit
          if d2 = [] then none else some (d1 ++ ['.'] ++ d2)
        | _ => none

/-- Leftmost match of `re.search(r"(Rule|Directive)\s+(\d+\.\d+)", text)`:
try every position left to right. -/
def ruleSearch : List Char → Option (List Char)
  | [] => none
  | c :: rest =>
    match ruleTryHere (c :: rest) with
    | some g2 => some g2
    | none => ruleSearch rest

/-- `extract_rules(deviations)`: for each deviation whose text matches,
collect `f"misra-c2012-{rule_num}"`. -/
def extract_rules (deviations : List Deviation) : List String :=
  deviations.filterMap fun dv =>
    (ruleSearch dv.deviation.data).map fun rule_num => "misra-c2012-" ++ String.mk rule_num

example :
    extract_rules [⟨"Deviated Rule 8.7 for externs"⟩] = ["misra-c2012-8.7"] := by decide

/-- What the network fetch and JSON decode of the Coverity config produced:
either an exception (`urllib.error.URLError` or `json.JSONDecodeError`) or
the decoded `deviations` array. -/
abbrev FetchOutcome := Except String (List Deviation)

/-- `fetch_misra_rules()`: on a successful fetch, `extract_rules` of the
decoded deviations; a `URLError`/`JSONDecodeError` is caught (with a
warning printed) and the empty rule list returned. -/
def fetch_misra_rules (outcome : FetchOutcome) : List String :=
  match outcome with
  | .ok deviations => extract_rules deviations
  | .error _ => []

/-- `write_config_file(filename, rules)`: the file content written, one
rule per line, the four static rules first. -/
def write_config_file (rules : List String) : String :=
  let static_rules := ["missingIncludeSystem", "checkersReport",
                       "unmatchedSuppression", "misra-config"]
  String.join ((static_rules ++ rules).map (fun rule => rule ++ "\n"))

/-! ## XML findings (`<error>` elements and their `<location>` children) -/

/-- A `<location>` child element: the attributes the script reads, `none`
when the attribute is absent. -/
structure Location where
  file? : Option String
  line? : Option String
  column? : Option String
deriving DecidableEq

/-- An `<error>` element: the attributes the script reads and the
`location` children in document order. -/
structure XmlError where
  id? : Option String
  severity? : Option String
  msg? : Option String
  locations : List Location
deriving DecidableEq

/-! ## `write_csv_output` -/

/-- Number of bytes of the UTF-8 encoding of a character. -/
def csize (c : Char) : Nat :=
  if c.toNat < 0x80 then 1
  else if c.toNat < 0x800 then 2
  else if c.toNat < 0x10000 then 3
  else 4

/-- Number of bytes the text-mode, UTF-8 file holds after writing these
characters: what `csvfile.tell()` reports. -/
def bytesLen (s : List Char) : Nat := (s.map csize).sum

/-- `csv.writer` with the default QUOTE_MINIMAL dialect quotes a field
iff it contains the delimiter, the quote character, or a CR/LF. -/
def quoteNeeded (f : List Char) : Bool :=
  f.any fun c => c = ',' || c = '"' || c = '\r' || c = '\n'

/-- A field as `csv.writer` emits it: quoted (with inner quotes doubled)
when needed, verbatim otherwise. -/
def csvField (f : List Char) : List Char :=
  if quoteNeeded f then
    '"' :: (f.flatMap fun c => if c = '"' then ['"', '"'] else [c]) ++ ['"']
  else f

/-- One `writer.writerow([a, b, c, d, e])`: comma-joined fields and the
default `\r\n` line terminator (the file was opened with `newline=""`). -/
def csvRow5 (a b c d e : List Char) : List Char :=
  csvField a ++ [','] ++ csvField b ++ [','] ++ csvField c ++ [','] ++
    csvField d ++ [','] ++ csvField e ++ ['\r', '\n']

/-- The header row `writer.writerow(["misra-c2012-rule", "severity",
"file", "line", "column"])` writes. -/
def csvHeaderRow : List Char :=
  csvRow5 "misra-c2012-rule".data "severity".data "file".data "line".data "column".data

example : csvHeaderRow = "misra-c2012-rule,severity,file,line,column\r\n".data := by decide
example : bytesLen csvHeaderRow = 44 := by decide

/-- `row_size = len(f"{error_id},{severity},{file_path},{line_num},{column}\n")`:
the script's size estimate for a row (`len` counts characters, joins with
plain commas and a bare `\n`). -/
def rowEstimate (a b c d e : List Char) : Nat :=
  (a ++ [','] ++ b ++ [','] ++ c ++ [','] ++ d ++ [','] ++ e ++ ['\n']).length

/-- Python `str.replace(pat, rep)` for a non-empty pattern: replace
non-overlapping occurrences left to right. Written with fuel (one unit per
character consumed) so that it is structural; `pyReplace` starts the fuel
at the string length, which suffices because every step consumes at least
one character. -/
def pyReplaceAux (pat rep : List Char) : Nat → List Char → List Char
  | 0, s => s
  | _ + 1, [] => []
  | fuel + 1, c :: rest =>
    if pat.isPrefixOf (c :: rest) then
      rep ++ pyReplaceAux pat rep fuel (List.drop (pat.length - 1) rest)
    else c :: pyReplaceAux pat rep fuel rest

/-- Python `s.replace(pat, rep)`. -/
def pyReplace (pat rep s : List Char) : List Char :=
  pyReplaceAux pat rep s.length s

example : pyReplace "misra-c2012-".data [] "misra-c2012-10.1".data = "10.1".data := by decide

/-- `error.get("id", "").replace("misra-c2012-", "")`. -/
def errorIdOf (e : XmlError) : List Char :=
  pyReplace "misra-c2012-".data [] (e.id?.getD "").data

/-- `error.get("severity", "")`. -/
def severityOf (e : XmlError) : List Char := (e.severity?.getD "").data

/-- Truthiness of the `max_size` argument: `if max_size:` is taken when the
argument was passed and is non-zero. -/
def maxSizeTruthy (maxSize : Option Nat) : Bool :=
  match maxSize with
  | some m => decide (m ≠ 0)
  | none => false

/-- The inner `for location in error.findall("location")` loop of
`write_csv_output`: threads the file content; the returned flag records
whether the size-cap `return` fired (which ends the whole function). -/
def writeLocsLoop (error_id severity : List Char) (maxSize : Option Nat) :
    List Location → List Char → List Char × Bool
  | [], content => (content, false)
  | loc :: rest, content =>
    let file_path := (loc.file?.getD "").data
    let line_num := (loc.line?.getD "").data
    let column := (loc.column?.getD "").data
    if maxSizeTruthy maxSize &&
        decide (bytesLen content + rowEstimate error_id severity file_path line_num column >
          maxSize.getD 0) then
      (content, true)
    else
      writeLocsLoop error_id severity maxSize rest
        (content ++ csvRow5 error_id severity file_path line_num column)

/-- The outer `for error in filtered_errors` loop of `write_csv_output`. -/
def writeErrorsLoop (maxSize : Option Nat) : List XmlError → List Char → List Char
  | [], content => content
  | e :: rest, content =>
    match writeLocsLoop (errorIdOf e) (severityOf e) maxSize e.locations content with
    | (content', true) => content'
    | (content', false) => writeErrorsLoop maxSize rest content'

/-- `write_csv_output(filtered_errors, output_file, max_size)`: the bytes
of the CSV file it leaves behind (header row, then one row per location of
each error, stopping early when the size cap check fires). -/
def write_csv_output (filtered_errors : List XmlError) (maxSize : Option Nat) : List Char :=
  writeErrorsLoop maxSize filtered_errors csvHeaderRow

example :
    write_csv_output
      [⟨some "misra-c2012-10.1", some "style", some "m", [⟨some "a.c", some "1", some "2"⟩]⟩]
      none =
    "misra-c2012-rule,severity,file,line,column\r\n10.1,style,a.c,1,2\r\n".data := by decide

/-! ## `get_changed_ranges` -/

/-- The character class of the diff-range validation regex: ASCII letters,
digits, dot, underscore, slash, hyphen. -/
def isRangeChar (c : Char) : Bool :=
  c.isAlpha || c.isDigit || c = '.' || c = '_' || c = '/' || c = '-'

/-- The `re.match` of `get_changed_ranges` (a non-empty run of range
characters, the literal `...`, then a non-empty run of range characters
anchored at both ends), without the trailing-newline allowance of `$`:
some split puts a non-empty class run, then `...`, then a non-empty class
run reaching the end. -/
def validDiffCore (cs : List Char) : Bool :=
  (List.range cs.length).any fun i =>
    decide (1 ≤ i) && (cs.take i).all isRangeChar &&
      decide ((cs.drop i).take 3 = ['.', '.', '.']) &&
      decide (i + 3 < cs.length) && ((cs.drop (i + 3)).all isRangeChar)

/-- The full validation: Python's `$` also matches just before a newline
that ends the string. -/
def validDiffRange (s : String) : Bool :=
  validDiffCore s.data ||
    (match s.data.getLast? with
     | some '\n' => validDiffCore s.data.dropLast
     | _ => false)

example : validDiffRange "origin/main...HEAD" = true := by decide
example : validDiffRange "a...b" = true := by decide
example : validDiffRange "a..b" = false := by decide
example : validDiffRange "...b" = false := by decide

/-- What `subprocess.run(["git", ...], capture_output=True, text=True)`
did: either raised an exception, or completed with this stdout (a non-zero
exit status does not raise, it just yields whatever stdout there is). -/
abbrev SubprocessOutcome := Except String String

/-- `get_changed_ranges(file_path, git_diff_range, source_dir)`: an
invalid diff-range string raises `ValueError` (not caught here); any
exception from the subprocess call or the parse is caught (with a message
printed) and the empty range list returned. -/
def get_changed_ranges (git_diff_range : String) (subprocess : SubprocessOutcome) :
    Except String (List (Int × Int)) :=
  if validDiffRange git_diff_range then
    match subprocess with
    | .ok stdout => .ok (parse_diff_ranges stdout)
    | .error _ => .ok []
  else
    .error "Invalid git diff range format"

/-! ## `filter_errors_by_changed_lines` -/

/-- Python `int(s)` on a string: optional surrounding whitespace, an
optional sign, then a non-empty digit run in which single underscores may
separate digits; anything else raises `ValueError` (`none`). -/
def pyIntDigits : Nat → List Char → Option Nat
  | acc, [] => some acc
  | acc, c :: rest =>
    if c.isDigit then pyIntDigits (10 * acc + (c.toNat - '0'.toNat)) rest
    else if c = '_' then
      match rest with
      | d :: rest' =>
        if d.isDigit then pyIntDigits (10 * acc + (d.toNat - '0'.toNat)) rest'
        else none
      | [] => none
    else none

/-- Python `int(s)` (`none` models a `ValueError`). -/
def pyInt (s : String) : Option Int :=
  let cs := (s.data.dropWhile isPySpace).reverse.dropWhile isPySpace |>.reverse
  match cs with
  | '-' :: d :: rest =>
    if d.isDigit then (pyIntDigits 0 (d :: rest)).map (fun n => -(n : Int)) else none
  | '+' :: d :: rest =>
    if d.isDigit then (pyIntDigits 0 (d :: rest)).map (fun n => (n : Int)) else none
  | d :: rest =>
    if d.isDigit then (pyIntDigits 0 (d :: rest)).map (fun n => (n : Int)) else none
  | [] => none

example : pyInt "16" = some 16 := by decide
example : pyInt " -42\t" = some (-42) := by decide
example : pyInt "1_6" = some 16 := by decide
example : pyInt "x" = none := by decide
example : pyInt "" = none := by decide

/-- Python `str.startswith("misra-c2012")` on the error's id attribute. -/
def startsWithMisra (s : String) : Bool :=
  "misra-c2012".data.isPrefixOf s.data

/-- The `file_ranges_cache` dict, keyed by file path. -/
abbrev Cache := List (String × List (Int × Int))

/-- Dict lookup in the cache (keys are inserted at most once, so the order
of an association-list lookup is immaterial). -/
def cacheLookup : Cache → String → Option (List (Int × Int))
  | [], _ => none
  | (k, v) :: rest, fp => if k = fp then some v else cacheLookup rest fp

/-- The per-file subprocess outcomes: what `git diff` would do for each
file path asked about. -/
abbrev DiffOracle := String → SubprocessOutcome

/-- The inner `for location in error.findall("location")` loop of
`filter_errors_by_changed_lines`: `int(location.get("line", 0))` may raise
(propagated as `.error`), a falsy file path or non-positive line skips the
location, the cache is consulted before `get_changed_ranges` (whose
`ValueError` also propagates), and the first location inside a changed
range appends the error and breaks. Returns whether the error was appended,
with the updated cache. -/
def filterLocsLoop (git_diff_range : String) (oracle : DiffOracle) :
    List Location → Cache → Except String (Bool × Cache)
  | [], cache => .ok (false, cache)
  | loc :: rest, cache =>
    match (match loc.line? with
           | none => some (0 : Int)
           | some s => pyInt s) with
    | none => .error "ValueError: invalid literal for int"
    | some line_num =>
      if (match loc.file? with | some fp => decide (fp ≠ "") | none => false) &&
          decide (0 < line_num) then
        let fp := loc.file?.getD ""
        match (match cacheLookup cache fp with
               | some rs => Except.ok (rs, cache)
               | none =>
                 match get_changed_ranges git_diff_range (oracle fp) with
                 | .ok rs => .ok (rs, (fp, rs) :: cache)
                 | .error msg => .error msg) with
        | .error msg => .error msg
        | .ok (rs, cache') =>
          if is_line_in_ranges line_num rs then .ok (true, cache')
          else filterLocsLoop git_diff_range oracle rest cache'
      else filterLocsLoop git_diff_range oracle rest cache

/-- The outer `for error in root.findall(".//error")` loop: errors whose id
does not start with `misra-c2012` are skipped; an appended error keeps its
document-order position. -/
def filterErrorsLoop (git_diff_range : String) (oracle : DiffOracle) :
    List XmlError → Cache → Except String (List XmlError)
  | [], _ => .ok []
  | e :: rest, cache =>
    if startsWithMisra (e.id?.getD "") then
      match filterLocsLoop git_diff_range oracle e.locations cache with
      | .error msg => .error msg
      | .ok (found, cache') =>
        match filterErrorsLoop git_diff_range oracle rest cache' with
        | .error msg => .error msg
        | .ok tail => .ok (if found then e :: tail else tail)
    else filterErrorsLoop git_diff_range oracle rest cache

/-- `filter_errors_by_changed_lines(root, git_diff_range, source_dir)`:
the returned `filtered_errors` list (`root`'s error elements are given in
document order; the subprocess outcomes per file are the oracle). -/
def filter_errors_by_changed_lines (errors : List XmlError) (git_diff_range : String)
    (oracle : DiffOracle) : Except String (List XmlError) :=
  filterErrorsLoop git_diff_range oracle errors []

deriving instance DecidableEq for Except

example :
    filter_errors_by_changed_lines
      [⟨some "misra-c2012-10.1", some "style", some "m",
        [⟨some "f.c", some "16", some "1"⟩]⟩,
       ⟨some "misra-c2012-10.1", some "style", some "m",
        [⟨some "f.c", some "20", some "1"⟩]⟩]
      "a...b" (fun _ => .ok "@@ -10,0 +15,3 @@") =
    .ok [⟨some "misra-c2012-10.1", some "style", some "m",
          [⟨some "f.c", some "16", some "1"⟩]⟩] := by decide

/-! ## Claim theorems: the simple concrete properties -/

/-- C5: applied to a deviation list whose deviation texts contain
`Rule 1.2` and `Directive 4.1` (one per record, in that order),
`extract_rules` returns exactly `["misra-c2012-1.2", "misra-c2012-4.1"]`. -/
theorem C5_extract_rules_example :
    extract_rules [⟨"Deviation of Rule 1.2 in the kernel"⟩,
                   ⟨"Deviation of Directive 4.1 in the kernel"⟩] =
      ["misra-c2012-1.2", "misra-c2012-4.1"] := by decide

/-- C6: for a diff output containing the single hunk header
`@@ -10,0 +15,3 @@`, `parse_diff_ranges` returns exactly the one range
`(15, 17)`. -/
theorem C6_parse_diff_ranges_example :
    parse_diff_ranges
      "diff --git a/f.c b/f.c\n--- a/f.c\n+++ b/f.c\n@@ -10,0 +15,3 @@\n+x\n+y\n+z" =
      [(15, 17)] := by decide

/-- C7: with the range set `[(15, 17)]`, `is_line_in_ranges` returns true
for line 16 and false for line 20. -/
theorem C7_is_line_in_ranges_example :
    is_line_in_ranges 16 [(15, 17)] = true ∧ is_line_in_ranges 20 [(15, 17)] = false := by
  decide

/-- C3: for every valid diff-range string, when the diff subprocess
invocation fails with an error, `get_changed_ranges` catches it and
returns the empty range list rather than propagating the error. -/
theorem C3_subprocess_error_gives_empty_ranges (git_diff_range : String) (err : String)
    (hvalid : validDiffRange git_diff_range = true) :
    get_changed_ranges git_diff_range (.error err) = .ok [] := by
  simp [get_changed_ranges, hvalid]

/-- Witness for C3 at the script's default diff range. -/
theorem C3_subprocess_error_gives_empty_ranges_witness :
    validDiffRange "origin/main...HEAD" = true ∧
      get_changed_ranges "origin/main...HEAD" (.error "git exploded") = .ok [] :=
  ⟨by decide,
   C3_subprocess_error_gives_empty_ranges "origin/main...HEAD" "git exploded" (by decide)⟩

/-- C4: when the rule fetch fails with a network or JSON-decoding error,
`fetch_misra_rules` returns the empty rule list, and the suppression file
content `write_config_file` then writes holds exactly the four static
rules, one per line, in order. -/
theorem C4_fetch_failure_writes_static_rules (e : String) :
    fetch_misra_rules (.error e) = [] ∧
      write_config_file (fetch_misra_rules (.error e)) =
        "missingIncludeSystem\ncheckersReport\nunmatchedSuppression\nmisra-config\n" :=
  ⟨rfl, rfl⟩

/-! ## C8: the CSV starts with the header row -/

/-- The inner location loop only appends to the file content. -/
theorem writeLocsLoop_extends (error_id severity : List Char) (maxSize : Option Nat) :
    ∀ (locs : List Location) (content : List Char),
      ∃ t, (writeLocsLoop error_id severity maxSize locs content).1 = content ++ t := by
  intro locs
  induction locs with
  | nil => exact fun content => ⟨[], by simp [writeLocsLoop]⟩
  | cons loc rest ih =>
    intro content
    simp only [writeLocsLoop]
    split
    · exact ⟨[], by simp⟩
    · obtain ⟨t, ht⟩ := ih (content ++ csvRow5 error_id severity (loc.file?.getD "").data
        (loc.line?.getD "").data (loc.column?.getD "").data)
      refine ⟨csvRow5 error_id severity (loc.file?.getD "").data
        (loc.line?.getD "").data (loc.column?.getD "").data ++ t, ?_⟩
      rw [ht, List.append_assoc]

/-- The outer error loop only appends to the file content. -/
theorem writeErrorsLoop_extends (maxSize : Option Nat) :
    ∀ (errors : List XmlError) (content : List Char),
      ∃ t, writeErrorsLoop maxSize errors content = content ++ t := by
  intro errors
  induction errors with
  | nil => exact fun content => ⟨[], by simp [writeErrorsLoop]⟩
  | cons e rest ih =>
    intro content
    have hext := writeLocsLoop_extends (errorIdOf e) (severityOf e) maxSize
      e.locations content
    rcases hloop : writeLocsLoop (errorIdOf e) (severityOf e) maxSize e.locations content
      with ⟨content', stopped⟩
    rw [hloop] at hext
    obtain ⟨t, ht⟩ := hext
    simp only at ht
    cases stopped with
    | true =>
      refine ⟨t, ?_⟩
      simp only [writeErrorsLoop, hloop]
      exact ht
    | false =>
      obtain ⟨t', ht'⟩ := ih content'
      refine ⟨t ++ t', ?_⟩
      simp only [writeErrorsLoop, hloop]
      rw [ht', ht, List.append_assoc]

/-- The header row is the literal header line. -/
theorem csvHeaderRow_eq :
    csvHeaderRow = "misra-c2012-rule,severity,file,line,column\r\n".data := by decide

/-- C8: for every list of filtered errors and every (possibly absent) size
cap, the CSV file written by `write_csv_output` has as its first row the
header `misra-c2012-rule,severity,file,line,column`. -/
theorem C8_csv_header_first (filtered_errors : List XmlError) (maxSize : Option Nat) :
    ∃ rest, write_csv_output filtered_errors maxSize =
      "misra-c2012-rule,severity,file,line,column\r\n".data ++ rest := by
  obtain ⟨t, ht⟩ := writeErrorsLoop_extends maxSize filtered_errors csvHeaderRow
  exact ⟨t, by rw [write_csv_output, ht, csvHeaderRow_eq]⟩

/-! ## C2: the size cap -/

/-- A character that is plain for the CSV writer and the script's size
estimate: ASCII (one UTF-8 byte) and not a character that forces quoting. -/
def cleanChar (c : Char) : Prop :=
  c.toNat < 128 ∧ c ≠ ',' ∧ c ≠ '"' ∧ c ≠ '\r' ∧ c ≠ '\n'

instance : DecidablePred cleanChar := fun _ => inferInstanceAs (Decidable (_ ∧ _))

/-- Every character of the field is clean. -/
def cleanField (f : List Char) : Prop := ∀ c ∈ f, cleanChar c

instance : DecidablePred cleanField := fun f => List.decidableBAll _ f

/-- `bytesLen` distributes over concatenation. -/
theorem bytesLen_append (s t : List Char) :
    bytesLen (s ++ t) = bytesLen s + bytesLen t := by
  simp [bytesLen]

/-- A clean field occupies one byte per character. -/
theorem bytesLen_of_clean (f : List Char) (h : cleanField f) : bytesLen f = f.length := by
  induction f with
  | nil => rfl
  | cons c rest ih =>
    have hc : csize c = 1 := by
      have := (h c (by simp)).1
      unfold csize
      rw [if_pos this]
    have hrest := ih fun c hc => h c (List.mem_cons_of_mem _ hc)
    simp [bytesLen, List.map_cons, List.sum_cons, hc] at *
    omega

/-- A clean field is written verbatim by `csv.writer`. -/
theorem csvField_of_clean (f : List Char) (h : cleanField f) : csvField f = f := by
  unfold csvField
  rw [if_neg]
  intro habs
  simp only [quoteNeeded, List.any_eq_true, Bool.or_eq_true, decide_eq_true_eq] at habs
  obtain ⟨c, hmem, hbad⟩ := habs
  have := h c hmem
  rcases this with ⟨_, h1, h2, h3, h4⟩
  rcases hbad with h | h | h | h <;> simp_all

/-- For clean fields the actual bytes of a CSV row exceed the script's
estimate by exactly one (the `\r\n` terminator against the estimate's
bare `\n`). -/
theorem bytesLen_csvRow5 (f1 f2 f3 f4 f5 : List Char)
    (h1 : cleanField f1) (h2 : cleanField f2) (h3 : cleanField f3)
    (h4 : cleanField f4) (h5 : cleanField f5) :
    bytesLen (csvRow5 f1 f2 f3 f4 f5) = rowEstimate f1 f2 f3 f4 f5 + 1 := by
  unfold csvRow5 rowEstimate
  rw [csvField_of_clean f1 h1, csvField_of_clean f2 h2, csvField_of_clean f3 h3,
      csvField_of_clean f4 h4, csvField_of_clean f5 h5]
  simp only [bytesLen_append, List.length_append]
  rw [bytesLen_of_clean f1 h1, bytesLen_of_clean f2 h2, bytesLen_of_clean f3 h3,
      bytesLen_of_clean f4 h4, bytesLen_of_clean f5 h5]
  have e1 : bytesLen [','] = 1 := rfl
  have e2 : bytesLen ['\r', '\n'] = 2 := rfl
  have e3 : bytesLen ['\n'] = 1 := rfl
  simp [e1, e2, e3]

/-- Size invariant of the location loop under the cap `m`: the content
never grows beyond `max 44 (m + 1)` bytes. -/
theorem writeLocsLoop_size (error_id severity : List Char) (m : Nat) (hm : 0 < m)
    (hid : cleanField error_id) (hsev : cleanField severity) :
    ∀ (locs : List Location) (content : List Char),
      (∀ loc ∈ locs, cleanField (loc.file?.getD "").data ∧
        cleanField (loc.line?.getD "").data ∧ cleanField (loc.column?.getD "").data) →
      bytesLen content ≤ max 44 (m + 1) →
      bytesLen (writeLocsLoop error_id severity (some m) locs content).1 ≤
        max 44 (m + 1) := by
  intro locs
  induction locs with
  | nil => intro content _ hbound; simpa [writeLocsLoop] using hbound
  | cons loc rest ih =>
    intro content hclean hbound
    have hcl := hclean loc (by simp)
    simp only [writeLocsLoop]
    split
    · simpa using hbound
    · rename_i hcond
      have htr : maxSizeTruthy (some m) = true := by
        simp [maxSizeTruthy]; omega
      rw [htr, Bool.true_and, decide_eq_true_eq] at hcond
      push_neg at hcond
      simp only [Option.getD_some] at hcond
      apply ih _ (fun l hl => hclean l (List.mem_cons_of_mem _ hl))
      rw [bytesLen_append, bytesLen_csvRow5 _ _ _ _ _ hid hsev hcl.1 hcl.2.1 hcl.2.2]
      omega

/-- Size invariant of the error loop under the cap `m`. -/
theorem writeErrorsLoop_size (m : Nat) (hm : 0 < m) :
    ∀ (errors : List XmlError) (content : List Char),
      (∀ e ∈ errors, cleanField (errorIdOf e) ∧ cleanField (severityOf e) ∧
        ∀ loc ∈ e.locations, cleanField (loc.file?.getD "").data ∧
          cleanField (loc.line?.getD "").data ∧ cleanField (loc.column?.getD "").data) →
      bytesLen content ≤ max 44 (m + 1) →
      bytesLen (writeErrorsLoop (some m) errors content) ≤ max 44 (m + 1) := by
  intro errors
  induction errors with
  | nil => intro content _ hbound; simpa [writeErrorsLoop] using hbound
  | cons e rest ih =>
    intro content hclean hbound
    have hce := hclean e (by simp)
    have hloc := writeLocsLoop_size (errorIdOf e) (severityOf e) m hm hce.1 hce.2.1
      e.locations content hce.2.2 hbound
    rcases hpair : writeLocsLoop (errorIdOf e) (severityOf e) (some m) e.locations content
      with ⟨content', stopped⟩
    rw [hpair] at hloc
    simp only at hloc
    cases stopped with
    | true =>
      simp only [writeErrorsLoop, hpair]
      exact hloc
    | false =>
      simp only [writeErrorsLoop, hpair]
      exact ih content' (fun e' he' => hclean e' (List.mem_cons_of_mem _ he')) hloc

/-- C2 as stated is false: with `max_size = 1` (a positive cap) and no
errors at all, the file still holds the 44-byte header row, which exceeds
the cap — the header is written before the cap is ever consulted. -/
theorem C2_size_cap_counterexample :
    0 < 1 ∧ ¬ bytesLen (write_csv_output [] (some 1)) ≤ 1 := by decide

/-- C2 amended: when a positive `max_size` is given and every written
field is clean (ASCII with no CSV-quoting characters), the CSV file is
never larger than `max 44 (max_size + 1)` bytes: the 44-byte header is
unconditional, and each data row may overshoot the estimate the script
checks by the one byte `\r\n` costs over `\n`. -/
theorem C2_size_cap_amended (filtered_errors : List XmlError) (m : Nat) (hm : 0 < m)
    (hclean : ∀ e ∈ filtered_errors, cleanField (errorIdOf e) ∧ cleanField (severityOf e) ∧
      ∀ loc ∈ e.locations, cleanField (loc.file?.getD "").data ∧
        cleanField (loc.line?.getD "").data ∧ cleanField (loc.column?.getD "").data) :
    bytesLen (write_csv_output filtered_errors (some m)) ≤ max 44 (m + 1) := by
  apply writeErrorsLoop_size m hm filtered_errors csvHeaderRow hclean
  have : bytesLen csvHeaderRow = 44 := by decide
  omega

/-- Witness for the amended C2 on a concrete error list and cap. -/
theorem C2_size_cap_amended_witness :
    0 < 100 ∧
      bytesLen (write_csv_output
        [⟨some "misra-c2012-10.1", some "style", some "m",
          [⟨some "a.c", some "1", some "2"⟩]⟩] (some 100)) ≤ max 44 101 :=
  ⟨by decide,
   C2_size_cap_amended
     [⟨some "misra-c2012-10.1", some "style", some "m",
       [⟨some "a.c", some "1", some "2"⟩]⟩] 100 (by decide) (by decide)⟩

/-! ## C9 and C10: shape of the filtered error list -/

/-- Every element the error loop emits passed the `misra-c2012` id guard. -/
theorem filterErrorsLoop_misra (r : String) (oracle : DiffOracle) :
    ∀ (errors : List XmlError) (cache : Cache) (out : List XmlError),
      filterErrorsLoop r oracle errors cache = .ok out →
      ∀ e ∈ out, startsWithMisra (e.id?.getD "") = true := by
  intro errors
  induction errors with
  | nil =>
    intro cache out h e he
    simp only [filterErrorsLoop] at h
    injection h with h
    subst h
    simp at he
  | cons e0 rest ih =>
    intro cache out h e he
    simp only [filterErrorsLoop] at h
    split at h
    · split at h
      · cases h
      · rename_i found cache' hloc
        split at h
        · cases h
        · rename_i tail htail
          injection h with h
          subst h
          cases found with
          | false => exact ih _ _ htail e (by simpa using he)
          | true =>
            simp only [if_true] at he
            rcases List.mem_cons.mp he with rfl | hmem
            · assumption
            · exact ih _ _ htail e hmem
    · exact ih _ _ h e he

/-- The error loop emits a sublist of its input: order preserved, each
input element at most once. -/
theorem filterErrorsLoop_sublist (r : String) (oracle : DiffOracle) :
    ∀ (errors : List XmlError) (cache : Cache) (out : List XmlError),
      filterErrorsLoop r oracle errors cache = .ok out → out.Sublist errors := by
  intro errors
  induction errors with
  | nil =>
    intro cache out h
    injection h with h
    subst h
    exact List.nil_sublist []
  | cons e0 rest ih =>
    intro cache out h
    simp only [filterErrorsLoop] at h
    split at h
    · split at h
      · cases h
      · rename_i found cache' hloc
        split at h
        · cases h
        · rename_i tail htail
          injection h with h
          subst h
          cases found with
          | false => exact (ih _ _ htail).cons e0
          | true => exact (ih _ _ htail).cons₂ e0
    · exact (ih _ _ h).cons e0

/-- C9: every error in the list returned by
`filter_errors_by_changed_lines` has an id beginning with `misra-c2012`,
and a finding whose id does not begin with `misra-c2012` never appears in
the output. -/
theorem C9_output_only_misra (errors : List XmlError) (r : String) (oracle : DiffOracle)
    (out : List XmlError)
    (h : filter_errors_by_changed_lines errors r oracle = .ok out) :
    (∀ e ∈ out, startsWithMisra (e.id?.getD "") = true) ∧
      ∀ e : XmlError, startsWithMisra (e.id?.getD "") = false → e ∉ out := by
  have hall := filterErrorsLoop_misra r oracle errors [] out h
  refine ⟨hall, fun e hfalse hmem => ?_⟩
  rw [hall e hmem] at hfalse
  cases hfalse

/-- C10: each error element appears at most once in the returned list
(it is a sublist of the input error elements), even when several of its
locations fall inside changed ranges. -/
theorem C10_output_no_duplicates (errors : List XmlError) (r : String) (oracle : DiffOracle)
    (out : List XmlError)
    (h : filter_errors_by_changed_lines errors r oracle = .ok out) :
    out.Sublist errors ∧ (errors.Nodup → out.Nodup) := by
  have hsub := filterErrorsLoop_sublist r oracle errors [] out h
  exact ⟨hsub, fun hnd => hnd.sublist hsub⟩

/-- A MISRA finding at a changed line (for the witnesses below). -/
def wErr : XmlError :=
  ⟨some "misra-c2012-10.1", some "style", some "m",
   [⟨some "f.c", some "16", some "1"⟩]⟩

/-- A non-MISRA finding at the same changed line. -/
def wErrNonMisra : XmlError :=
  ⟨some "nullPointer", some "error", some "m",
   [⟨some "f.c", some "16", some "1"⟩]⟩

/-- A MISRA finding with two locations inside the changed range. -/
def wErrTwoLocs : XmlError :=
  ⟨some "misra-c2012-12.3", some "style", some "m",
   [⟨some "f.c", some "15", some "1"⟩, ⟨some "f.c", some "16", some "2"⟩]⟩

/-- A MISRA finding at an unchanged line. -/
def wErrOutside : XmlError :=
  ⟨some "misra-c2012-9.9", some "style", some "m",
   [⟨some "f.c", some "20", some "1"⟩]⟩

/-- Subprocess outcomes for the witnesses: every file diff prints one
hunk header `@@ -10,0 +15,3 @@`. -/
def wOracle : DiffOracle := fun _ => .ok "@@ -10,0 +15,3 @@"

/-- Witness for C9: a concrete run whose output retains the MISRA finding
and drops the non-MISRA one at the same changed line. -/
theorem C9_output_only_misra_witness : startsWithMisra (wErr.id?.getD "") = true :=
  (C9_output_only_misra [wErr, wErrNonMisra] "a...b" wOracle [wErr] (by decide)).1
    wErr (by simp)

/-- Witness for C10: a concrete run in which one finding has two locations
inside the changed range and still appears once. -/
theorem C10_output_no_duplicates_witness :
    ([wErrTwoLocs] : List XmlError).Sublist [wErrTwoLocs, wErrOutside] ∧
      (([wErrTwoLocs, wErrOutside] : List XmlError).Nodup →
        ([wErrTwoLocs] : List XmlError).Nodup) :=
  C10_output_no_duplicates [wErrTwoLocs, wErrOutside] "a...b" wOracle [wErrTwoLocs]
    (by decide)

/-! ## C1: the binary-search path against the linear-scan semantics -/

/-- `pairLe` chains with `pairLt` on the right. -/
theorem pairLe_lt_trans {a b c : Int × Int} (h1 : pairLe a b) (h2 : pairLt b c) :
    pairLt a c := by
  simp only [pairLe, pairLt] at *
  omega

/-- `pairLe` is reflexive. -/
theorem pairLe_refl (a : Int × Int) : pairLe a a := Or.inr ⟨rfl, le_refl _⟩

/-- A sorted list is monotone in `getD` up to its length. -/
theorem sorted_getD_mono {s : List (Int × Int)} (hs : List.Sorted pairLe s) :
    ∀ i j : Nat, i ≤ j → j < s.length →
      pairLe (s.getD i (0, 0)) (s.getD j (0, 0)) := by
  intro i j hij hj
  rcases Nat.eq_or_lt_of_le hij with rfl | hlt
  · exact pairLe_refl _
  · rw [List.getD_eq_getElem _ _ (by omega), List.getD_eq_getElem _ _ hj]
    have := List.pairwise_iff_get.mp hs ⟨i, by omega⟩ ⟨j, hj⟩ hlt
    simpa using this

/-- Characterisation of the `bisect_left` loop on a sorted slice: the
result separates the entries strictly below `x` from the rest. -/
theorem bisectLeftAux_spec (s : List (Int × Int)) (x : Int × Int)
    (hs : List.Sorted pairLe s) :
    ∀ (fuel lo hi : Nat), lo ≤ hi → hi ≤ s.length → hi - lo ≤ fuel →
      (∀ i, i < lo → pairLt (s.getD i (0, 0)) x) →
      (∀ i, hi ≤ i → i < s.length → ¬ pairLt (s.getD i (0, 0)) x) →
      lo ≤ bisectLeftAux s x fuel lo hi ∧ bisectLeftAux s x fuel lo hi ≤ hi ∧
        (∀ i, i < bisectLeftAux s x fuel lo hi → pairLt (s.getD i (0, 0)) x) ∧
        (∀ i, bisectLeftAux s x fuel lo hi ≤ i → i < s.length →
          ¬ pairLt (s.getD i (0, 0)) x) := by
  intro fuel
  induction fuel with
  | zero =>
    intro lo hi h1 h2 h3 hL hR
    have hlohi : lo = hi := by omega
    subst hlohi
    simp only [bisectLeftAux]
    exact ⟨le_refl lo, le_refl lo, fun i hi' => hL i hi',
      fun i hge hlen => hR i hge hlen⟩
  | succ fuel ih =>
    intro lo hi h1 h2 h3 hL hR
    simp only [bisectLeftAux]
    by_cases hlt : lo < hi
    · rw [if_pos hlt]
      have hmlo : lo ≤ (lo + hi) / 2 := by omega
      have hmhi : (lo + hi) / 2 < hi := by omega
      by_cases hcmp : pairLt (s.getD ((lo + hi) / 2) (0, 0)) x
      · rw [if_pos hcmp]
        have hres := ih ((lo + hi) / 2 + 1) hi (by omega) h2 (by omega)
          (fun i hi' => pairLe_lt_trans (sorted_getD_mono hs i ((lo + hi) / 2)
            (by omega) (by omega)) hcmp)
          hR
        exact ⟨by omega, hres.2.1, hres.2.2.1, hres.2.2.2⟩
      · rw [if_neg hcmp]
        have hres := ih lo ((lo + hi) / 2) (by omega) (by omega) (by omega) hL
          (fun i hge hlen habs =>
            hcmp (pairLe_lt_trans (sorted_getD_mono hs ((lo + hi) / 2) i hge hlen) habs))
        exact ⟨hres.1, by omega, hres.2.2.1, hres.2.2.2⟩
    · rw [if_neg hlt]
      have hlohi : lo = hi := by omega
      exact ⟨le_refl lo, by omega, fun i hi' => hL i hi',
        fun i hge hlen => hR i (by omega) hlen⟩

/-- `bisect_left` on a sorted list: entries before the returned index are
strictly below `x`, entries from it on are not. -/
theorem bisect_left_spec (s : List (Int × Int)) (x : Int × Int)
    (hs : List.Sorted pairLe s) :
    bisect_left s x ≤ s.length ∧
      (∀ i, i < bisect_left s x → pairLt (s.getD i (0, 0)) x) ∧
      (∀ i, bisect_left s x ≤ i → i < s.length → ¬ pairLt (s.getD i (0, 0)) x) := by
  have h := bisectLeftAux_spec s x hs s.length 0 s.length (by omega) (by omega)
    (by omega) (fun i hi' => absurd hi' (by omega)) (fun i hge hlen => absurd hlen (by omega))
  exact ⟨h.2.1, h.2.2.1, h.2.2.2⟩

/-- `pairLe` bounds the first components. -/
theorem pairLe_fst {a b : Int × Int} (h : pairLe a b) : a.1 ≤ b.1 := by
  simp only [pairLe] at h
  omega

/-- A `getD` at a valid index is a member. -/
theorem getD_mem_of_lt {s : List (Int × Int)} {i : Nat} (h : i < s.length) :
    s.getD i (0, 0) ∈ s := by
  rw [List.getD_eq_getElem _ _ h]
  exact List.getElem_mem h

/-- Pairwise interval disjointness read off at two indices. -/
theorem disj_getD {s : List (Int × Int)}
    (hd : List.Pairwise (fun r t => r.2 < t.1 ∨ t.2 < r.1) s) :
    ∀ i j : Nat, i < j → j < s.length →
      (s.getD i (0, 0)).2 < (s.getD j (0, 0)).1 ∨
        (s.getD j (0, 0)).2 < (s.getD i (0, 0)).1 := by
  intro i j hij hj
  rw [List.getD_eq_getElem _ _ (by omega), List.getD_eq_getElem _ _ hj]
  have := List.pairwise_iff_get.mp hd ⟨i, by omega⟩ ⟨j, hj⟩ hij
  simpa using this

/-- Completeness of the two-neighbour check: in a sorted list of
well-formed, pairwise disjoint ranges, an index whose range contains the
line can only be `bisect_left`'s index or its predecessor. -/
theorem containing_index_near_bisect {s : List (Int × Int)}
    (hsorted : List.Sorted pairLe s)
    (hwf : ∀ r ∈ s, r.1 ≤ r.2)
    (hdisj : List.Pairwise (fun r t => r.2 < t.1 ∨ t.2 < r.1) s)
    (line : Int) (j : Nat) (hj : j < s.length)
    (hc1 : (s.getD j (0, 0)).1 ≤ line) (hc2 : line ≤ (s.getD j (0, 0)).2) :
    j = bisect_left s (line, line) ∨ j + 1 = bisect_left s (line, line) := by
  obtain ⟨hidx_len, hbelow, habove⟩ := bisect_left_spec s (line, line) hsorted
  rcases Nat.lt_or_ge j (bisect_left s (line, line)) with hcase | hcase
  · right
    by_contra hne
    have hk : j < bisect_left s (line, line) - 1 := by omega
    have hklt : bisect_left s (line, line) - 1 < bisect_left s (line, line) := by omega
    have hklen : bisect_left s (line, line) - 1 < s.length := by omega
    have hkb := hbelow (bisect_left s (line, line) - 1) hklt
    have hjb := hbelow j hcase
    have hwfk := hwf _ (getD_mem_of_lt hklen)
    have hle := sorted_getD_mono hsorted j (bisect_left s (line, line) - 1)
      (by omega) hklen
    have hdjk := disj_getD hdisj j (bisect_left s (line, line) - 1) hk hklen
    simp only [pairLt, pairLe] at hkb hjb hle
    omega
  · left
    by_contra hne
    have hilt : bisect_left s (line, line) < j := by omega
    have hilen : bisect_left s (line, line) < s.length := by omega
    have hja := habove j hcase hj
    have hia := habove (bisect_left s (line, line)) (le_refl _) hilen
    have hle := sorted_getD_mono hsorted (bisect_left s (line, line)) j
      (by omega) hj
    have hdij := disj_getD hdisj (bisect_left s (line, line)) j hilt hj
    have hwfi := hwf _ (getD_mem_of_lt hilen)
    simp only [pairLt, pairLe] at hja hia hle
    omega

/-- C1 amended: for well-formed (`start <= end`), pairwise disjoint range
lists, `is_line_in_ranges` — whichever path it takes — returns true exactly
when some range contains the line. (The unrestricted claim is false: see
the counterexample below.) -/
theorem C1_binary_equals_linear (line_num : Int) (ranges : List (Int × Int))
    (hwf : ∀ r ∈ ranges, r.1 ≤ r.2)
    (hdisj : List.Pairwise (fun r t => r.2 < t.1 ∨ t.2 < r.1) ranges) :
    is_line_in_ranges line_num ranges = true ↔
      ∃ r ∈ ranges, r.1 ≤ line_num ∧ line_num ≤ r.2 := by
  by_cases hlen : ranges.length ≤ 5
  · simp only [is_line_in_ranges, if_pos hlen, List.any_eq_true, Bool.and_eq_true,
      decide_eq_true_eq]
  · simp only [is_line_in_ranges, if_neg hlen]
    have hperm : (pySorted ranges).Perm ranges := List.perm_insertionSort pairLe ranges
    have hsorted : List.Sorted pairLe (pySorted ranges) :=
      List.sorted_insertionSort pairLe ranges
    have hwf' : ∀ r ∈ pySorted ranges, r.1 ≤ r.2 :=
      fun r hr => hwf r (hperm.mem_iff.mp hr)
    have hdisj' : List.Pairwise (fun r t => r.2 < t.1 ∨ t.2 < r.1) (pySorted ranges) :=
      (hperm.pairwise_iff fun h => h.symm).mpr hdisj
    have hlen_eq : (pySorted ranges).length = ranges.length := hperm.length_eq
    constructor
    · intro h
      simp only [List.any_cons, List.any_nil, Bool.or_false, Bool.or_eq_true] at h
      rcases h with h | h
      · split at h
        · rename_i hcond
          have htlen :
              ((bisect_left (pySorted ranges) (line_num, line_num) : Int) - 1).toNat <
                (pySorted ranges).length := by omega
          simp only [Bool.and_eq_true, decide_eq_true_eq] at h
          exact ⟨_, hperm.subset (getD_mem_of_lt htlen), h.1, h.2⟩
        · cases h
      · split at h
        · rename_i hcond
          have htlen :
              ((bisect_left (pySorted ranges) (line_num, line_num) : Int)).toNat <
                (pySorted ranges).length := by omega
          simp only [Bool.and_eq_true, decide_eq_true_eq] at h
          exact ⟨_, hperm.subset (getD_mem_of_lt htlen), h.1, h.2⟩
        · cases h
    · rintro ⟨r, hrmem, hr1, hr2⟩
      have hrs : r ∈ pySorted ranges := hperm.mem_iff.mpr hrmem
      obtain ⟨⟨j, hjlen⟩, hgetj⟩ := List.mem_iff_get.mp hrs
      have hgetD : (pySorted ranges).getD j (0, 0) = r := by
        rw [List.getD_eq_getElem _ _ hjlen, ← hgetj]
        simp
      have hcj := containing_index_near_bisect hsorted hwf' hdisj' line_num j hjlen
        (hgetD ▸ hr1) (hgetD ▸ hr2)
      simp only [List.any_cons, List.any_nil, Bool.or_false, Bool.or_eq_true]
      rcases hcj with hcj | hcj
      · right
        rw [← hcj]
        rw [if_pos ⟨by omega, by omega⟩]
        rw [show ((j : Int)).toNat = j from by omega, hgetD]
        simp [hr1, hr2]
      · left
        rw [← hcj]
        rw [if_pos ⟨by omega, by omega⟩]
        rw [show (((j + 1 : Nat) : Int) - 1).toNat = j from by omega, hgetD]
        simp [hr1, hr2]

/-- C1 counterexample: with more than five overlapping ranges the
binary-search path misses a containing range. Line 10 lies in `(1, 100)`,
yet `is_line_in_ranges` (taking the binary path on this six-element list)
returns false, so the claimed equivalence with the linear-scan semantics
fails for arbitrary range lists. -/
theorem C1_binary_path_counterexample :
    is_line_in_ranges 10 [(1, 100), (2, 3), (3, 4), (4, 5), (5, 6), (50, 60)] = false ∧
      ∃ r ∈ [((1 : Int), (100 : Int)), (2, 3), (3, 4), (4, 5), (5, 6), (50, 60)],
        r.1 ≤ 10 ∧ 10 ≤ r.2 := by decide

/-- Witness for the amended C1 on a six-element disjoint range list (which
takes the binary-search path). -/
theorem C1_binary_equals_linear_witness :
    is_line_in_ranges 16
      [(1, 2), (5, 6), (10, 12), (15, 17), (20, 22), (30, 31)] = true :=
  (C1_binary_equals_linear 16 [(1, 2), (5, 6), (10, 12), (15, 17), (20, 22), (30, 31)]
      (by decide) (by decide)).mpr
    ⟨(15, 17), by decide, by decide⟩
